import Mathlib

/-!
# RLGymPPO_CPP : the discrete policy (`DiscretePolicy.cpp`)

A shallow embedding of `RLGPC::DiscretePolicy` and the properties of its
operations.

Conventions of the embedding.

* Tensor entries are numbers of a linearly ordered field `K`; the definitions
  are generic (and executable for `K = ℚ`), and the theorems that need the
  exponential and the logarithm are stated for `K = ℝ`.  These definitions give
  what the code computes as long as it divides by numbers other than zero; the
  theorems that depend on it carry that as a hypothesis.  A second set of
  definitions (`FloatVal`) repeats `GetOutput` and `GetActionProbs` on values
  that may be infinite or NaN, as a division by zero produces them.  Rounding
  and overflow of `float` are not represented.
* A two-dimensional tensor is a list of rows.  The library operations
  (`softmax`, `clamp`, `argmax`, `gather`, `view`, `sum`, `mean`, `Linear`,
  `ReLU`) are written out on rows; the operations of the library that throw
  on ill-shaped arguments are only meant for well-shaped ones, and the
  theorems that depend on the shape say so in a hypothesis.
* `ACTION_MIN_PROB` is a constant of `DiscretePolicy.h`; it is an argument of
  the operations that use it.
* An operation that can stop the process, throw or read outside a container
  returns an `Outcome`.
-/

namespace RLGPC

/-- Outcome of an operation that may not complete: `ok` is normal completion,
`fatal` is a reported fatal error that stops the run, `thrown` is an exception of
the library that the operation does not catch, and `undefined` marks an
execution that reads a `std::vector` outside its range, for which C++ defines no
behaviour (in particular no error report). -/
inductive Outcome (α : Type) where
  | ok (value : α)
  | fatal (msg : String)
  | thrown (msg : String)
  | undefined

/-- Sequencing: the second step runs only when the first one completes. -/
def Outcome.bind {α β : Type} (o : Outcome α) (f : α → Outcome β) : Outcome β :=
  match o with
  | .ok a => f a
  | .fatal msg => .fatal msg
  | .thrown msg => .thrown msg
  | .undefined => .undefined

/-- Modelled from the spec: the macro `RG_ERR_CLOSE`, which is declared outside
`DiscretePolicy.cpp`.  It reports a fatal, unrecoverable error with the given
message and halts the run. -/
def RG_ERR_CLOSE {α : Type} (msg : String) : Outcome α := Outcome.fatal msg

/-- The scalar functions of the tensor library used by the policy. -/
structure TorchMath (K : Type) where
  exp : K → K
  log : K → K

/-- The real exponential and natural logarithm. -/
noncomputable def realMath : TorchMath ℝ := ⟨Real.exp, Real.log⟩

/-- A parameter tensor: its shape and its entries in row-major order. -/
structure Tensor (K : Type) where
  shape : List Nat
  data : List K

/-- The modules pushed into `seq` by the constructor: `nn::Linear`, with the
two sizes it was created with and its `weight` (shape `[out, in]`) and `bias`
(shape `[out]`) tensors, and `nn::ReLU`. -/
inductive Module (K : Type) where
  | Linear (in_features out_features : Int) (weight bias : Tensor K)
  | ReLU

/-- The fields of `RLGPC::DiscretePolicy` that `DiscretePolicy.cpp` uses (the class
is declared in `DiscretePolicy.h`; the device is not represented).  An undefined
optional tensor is `none`. -/
structure DiscretePolicy (K : Type) where
  inputAmount : Int
  actionAmount : Int
  layerSizes : List Int
  temperature : K
  seq : List (Module K)
  actionProbBonuses : Option (List K)
  actionEntropyScales : Option (List K)

/-- Value pair returned by `GetAction`. -/
structure ActionResult (K : Type) where
  action : List Nat
  logProb : List K

/-- Value pair returned by `GetBackpropData`. -/
structure BackpropResult (K : Type) where
  actionLogProbs : List K
  entropy : K

section Defs

variable {K : Type} [LinearOrderedField K]

/-! ## Library operations on rows -/

/-- Inner product of two rows. -/
def dot (a b : List K) : K := (List.zipWith (fun x y => x * y) a b).sum

/-- Row `j` of a matrix tensor of shape `[out, in]`. -/
def Tensor.row (W : Tensor K) (j : Nat) : List K :=
  (W.data.drop (j * W.shape.getD 1 0)).take (W.shape.getD 1 0)

/-- One module applied to one row: `Linear` computes `x Wᵀ + b`, `ReLU`
computes `max x 0` entrywise. -/
def Module.forward : Module K → List K → List K
  | .Linear _ _ W b, x =>
      (List.range (W.shape.getD 0 0)).map (fun j => dot (W.row j) x + b.data.getD j 0)
  | .ReLU, x => x.map (fun v => max v 0)

/-- The call `seq->forward(input)`: the modules in order, on every row of the batch. -/
def Sequential.forward (seq : List (Module K)) (input : List (List K)) : List (List K) :=
  input.map (fun row => seq.foldl (fun x m => m.forward x) row)

/-- Softmax along the last axis, on one row. -/
def softmax (N : TorchMath K) (row : List K) : List K :=
  row.map (fun x => N.exp x / (row.map N.exp).sum)

/-- The call `torch::clamp(x, lo, hi)` on one number (see `FloatVal.clamp` for
infinities and NaN). -/
def clamp (x lo hi : K) : K := min (max x lo) hi

/-- The call `view(-1, n)` on the row-major entries of a tensor: consecutive
rows of `n` entries. -/
def view (n : Nat) (l : List K) : List (List K) :=
  if n = 0 ∨ l.length = 0 then [] else l.take n :: view n (l.drop n)
termination_by l.length
decreasing_by
  simp only [List.length_drop]
  omega

/-- The call `argmax` on one row: the first index that holds the largest entry. -/
def argmax : List K → Nat
  | [] => 0
  | x :: xs => if xs.all (fun y => decide (y ≤ x)) then 0 else argmax xs + 1

/-- The call `t.gather(-1, idx)` with one index per row. -/
def gather (t : List (List K)) (idx : List Nat) : List K :=
  List.zipWith (fun row a => row.getD a 0) t idx

/-- The largest entry of a row (`0` for the empty row). -/
def rowMax : List K → K
  | [] => 0
  | x :: xs => xs.foldl max x

/-- The method `DiscretePolicy::GetOutput`, on numbers (see `FloatVal.GetOutput`
for the values a division by zero produces). -/
def GetOutput (N : TorchMath K) (p : DiscretePolicy K) (input : List (List K)) :
    List (List K) :=
  let baseOutput := (Sequential.forward p.seq input).map (fun r => r.map (fun x => x / p.temperature))
  let result := baseOutput.map (softmax N)
  match p.actionProbBonuses with
  | some bonus =>
      let result := result.map (fun r => List.zipWith (fun x b => x + b) r bonus)
      result.map (fun r => r.map (fun x => x / r.sum))
  | none => result

/-- The method `DiscretePolicy::GetActionProbs`. -/
def GetActionProbs (N : TorchMath K) (ACTION_MIN_PROB : K) (p : DiscretePolicy K)
    (obs : List (List K)) : List (List K) :=
  let probs := GetOutput N p obs
  let probs := view p.actionAmount.toNat probs.flatten
  probs.map (fun r => r.map (fun x => clamp x ACTION_MIN_PROB 1))

/-- The method `DiscretePolicy::GetAction`; `multinomial` is the random draw of
one index per row made by the library. -/
def GetAction (N : TorchMath K) (ACTION_MIN_PROB : K) (multinomial : List (List K) → List Nat)
    (p : DiscretePolicy K) (obs : List (List K)) (deterministic : Bool) : ActionResult K :=
  let probs := GetActionProbs N ACTION_MIN_PROB p obs
  if deterministic then
    let action := probs.map argmax
    { action := action, logProb := List.replicate action.length 0 }
  else
    let action := multinomial probs
    let logProb := gather (probs.map (fun r => r.map N.log)) action
    { action := action, logProb := logProb }

/-- The method `DiscretePolicy::GetBackpropData`. -/
def GetBackpropData (N : TorchMath K) (ACTION_MIN_PROB : K) (p : DiscretePolicy K)
    (obs : List (List K)) (acts : List Nat) : BackpropResult K :=
  let probs := GetActionProbs N ACTION_MIN_PROB p obs
  let logProbs := probs.map (fun r => r.map N.log)
  let actionLogProbs := gather logProbs acts
  let entropy := List.zipWith (fun lr pr => List.zipWith (fun l q => -(l * q)) lr pr) logProbs probs
  let entropy :=
    match p.actionEntropyScales with
    | some scales => entropy.map (fun r => List.zipWith (fun e s => e * s) r scales)
    | none => entropy
  let entropy := entropy.map List.sum
  { actionLogProbs := actionLogProbs, entropy := entropy.sum / (entropy.length : K) }

/-! ## Construction -/

/-- The expression `v[i]` on an `IList`.  The type is declared outside
`DiscretePolicy.cpp`, which uses it as a `std::vector<int>` (`size()`, `back()`,
`operator[]`): no range check is made, and a read outside the range has no
defined behaviour. -/
def IList.get (v : List Int) (i : Nat) : Outcome Int :=
  match v[i]? with
  | some x => .ok x
  | none => .undefined

/-- The expression `v.back()` on an `IList`: undefined on the empty vector. -/
def IList.back (v : List Int) : Outcome Int :=
  match v.getLast? with
  | some x => .ok x
  | none => .undefined

/-- The module that `nn::Linear(in, out)` makes when it succeeds; `init` stands
for the random initial weight and bias that the library gives the new layer. -/
def linearModule (init : Int → Int → Tensor K × Tensor K) (inF outF : Int) : Module K :=
  .Linear inF outF (init inF outF).1 (init inF outF).2

/-- The call `nn::Linear(in, out)`: the library throws when asked for a tensor
with a negative dimension. -/
def nnLinear (init : Int → Int → Tensor K × Tensor K) (inF outF : Int) : Outcome (Module K) :=
  if inF < 0 ∨ outF < 0 then .thrown "negative dimension"
  else .ok (linearModule init inF outF)

/-- The loop `for (int i = 1; i < layerSizes.size(); i++)` of the constructor,
from index `i` on, with the current `prevLayerSize` and `seq`.  (The counter is
an `int`; a layer list is far shorter than `2 ^ 31`, so the counter is a natural
number here.) -/
def DiscretePolicy.hiddenLoop (init : Int → Int → Tensor K × Tensor K) (layerSizes : List Int)
    (i : Nat) (prevLayerSize : Int) (seq : List (Module K)) : Outcome (List (Module K)) :=
  if i < layerSizes.length then
    (IList.get layerSizes i).bind fun layerSize =>
    (nnLinear init prevLayerSize layerSize).bind fun linear =>
      DiscretePolicy.hiddenLoop init layerSizes (i + 1) layerSize
        (seq ++ [linear] ++ [Module.ReLU])
  else .ok seq
termination_by layerSizes.length - i

/-- The constructor `DiscretePolicy::DiscretePolicy`.  `toDevice` is the result of
the closing call `this->to(device, true)`, which throws when the placement on the
device fails.  Both optional tensors start undefined. -/
def DiscretePolicy.new (init : Int → Int → Tensor K × Tensor K) (toDevice : Except String Unit)
    (inputAmount actionAmount : Int) (layerSizes : List Int) (temperature : K) :
    Outcome (DiscretePolicy K) :=
  let seq : List (Module K) := []
  (IList.get layerSizes 0).bind fun first =>
  (nnLinear init inputAmount first).bind fun linear =>
  let seq := seq ++ [linear]
  let seq := seq ++ [Module.ReLU]
  let prevLayerSize := first
  (DiscretePolicy.hiddenLoop init layerSizes 1 prevLayerSize seq).bind fun seq =>
  (IList.back layerSizes).bind fun last =>
  (nnLinear init last actionAmount).bind fun output =>
  let seq := seq ++ [output]
  match toDevice with
  | .error e => .thrown e
  | .ok _ =>
      .ok { inputAmount := inputAmount, actionAmount := actionAmount,
            layerSizes := layerSizes, temperature := temperature, seq := seq,
            actionProbBonuses := none, actionEntropyScales := none }

/-- The layer sequence that the description of the constructor asks for: one
`Linear` + `ReLU` pair per hidden size, each `Linear` taking the previous width
(first `inputAmount`), then one last `Linear` with `actionAmount` outputs. -/
def describedSeq (init : Int → Int → Tensor K × Tensor K) (inputAmount actionAmount : Int)
    (layerSizes : List Int) : List (Module K) :=
  ((List.zip (inputAmount :: layerSizes) layerSizes).map
      (fun ab => [linearModule init ab.1 ab.2, Module.ReLU])).flatten
    ++ [linearModule init (layerSizes.getLastD inputAmount) actionAmount]

/-! ## Parameter copy -/

/-- The call `parameters()` on the modules: weight then bias of every `Linear`, in order. -/
def Module.parameters : List (Module K) → List (Tensor K)
  | [] => []
  | .Linear _ _ w b :: ms => w :: b :: Module.parameters ms
  | .ReLU :: ms => Module.parameters ms

/-- The modules after their parameter tensors have been overwritten in place
by the tensors of `ps`, in the order of `parameters()`. -/
def Module.setParameters : List (Module K) → List (Tensor K) → List (Module K)
  | [], _ => []
  | .Linear i o w b :: ms, ps =>
      .Linear i o (ps.getD 0 w) (ps.getD 1 b) :: Module.setParameters ms (ps.drop 2)
  | .ReLU :: ms, ps => .ReLU :: Module.setParameters ms ps

/-- The call `parameters()` on a policy. -/
def DiscretePolicy.parameters (p : DiscretePolicy K) : List (Tensor K) :=
  Module.parameters p.seq

/-- The policy after its parameter tensors have been overwritten in place by `ps`. -/
def DiscretePolicy.withParameters (p : DiscretePolicy K) (ps : List (Tensor K)) :
    DiscretePolicy K :=
  { p with seq := Module.setParameters p.seq ps }

/-- The loop of `CopyTo` from index `i` on: `toParams[i].copy_(fromParams[i])`
for every `i < fromParams.size()`.  An exception of `copy_` leaves the loop and
is handed to `RG_ERR_CLOSE` by the `catch` block; `toParams[i]` outside the range
of `toParams` is a read outside a `std::vector`.  (The counter is an `int`; a
parameter list is far shorter than `2 ^ 31`.) -/
def DiscretePolicy.copyLoop (copy_ : Tensor K → Tensor K → Except String (Tensor K))
    (fromParams : List (Tensor K)) (i : Nat) (toParams : List (Tensor K)) :
    Outcome (List (Tensor K)) :=
  if h : i < fromParams.length then
    match toParams[i]? with
    | none => .undefined
    | some t =>
        match copy_ t (fromParams.get ⟨i, h⟩) with
        | .error e => RG_ERR_CLOSE ("DiscretePolicy::CopyTo() exception: " ++ e)
        | .ok t2 => DiscretePolicy.copyLoop copy_ fromParams (i + 1) (toParams.set i t2)
  else .ok toParams
termination_by fromParams.length - i

/-- The method `DiscretePolicy::CopyTo`: the state of the two policies
`(this, to)` after the call (the argument `to` is named `toPolicy`).  `copy_` is
the tensor copy of the library, which throws when the shapes do not fit. -/
def DiscretePolicy.CopyTo (copy_ : Tensor K → Tensor K → Except String (Tensor K))
    (self toPolicy : DiscretePolicy K) : Outcome (DiscretePolicy K × DiscretePolicy K) :=
  let fromParams := self.parameters
  let toParams := toPolicy.parameters
  (DiscretePolicy.copyLoop copy_ fromParams 0 toParams).bind fun ps =>
    .ok (self, toPolicy.withParameters ps)

/-- The entries of a tensor of shape `ss` expanded to the shape `ts` of the same
rank: a dimension of size 1 is repeated, an equal dimension is expanded slice by
slice, any other pair does not fit. -/
def Tensor.expandData : List Nat → List Nat → List K → Option (List K)
  | [], [], d => some d
  | s :: ss, t :: ts, d =>
      if s = t then
        (List.range s).foldr
          (fun i acc =>
            match Tensor.expandData ss ts ((d.drop (i * ss.prod)).take ss.prod), acc with
            | some e, some r => some (e ++ r)
            | _, _ => none)
          (some [])
      else if s = 1 then
        (Tensor.expandData ss ts d).map (fun e => (List.replicate t e).flatten)
      else none
  | _, _, _ => none

/-- The call `dst.copy_(src)` of the library on shapes and entries: `dst` keeps
its shape and receives the entries of `src`, broadcast to that shape; the call
throws when the shape of `src` cannot be broadcast to the shape of `dst`. -/
def Tensor.copy_ (dst src : Tensor K) : Except String (Tensor K) :=
  if dst.shape = src.shape then .ok { shape := dst.shape, data := src.data }
  else if src.shape.length ≤ dst.shape.length then
    match Tensor.expandData
        (List.replicate (dst.shape.length - src.shape.length) 1 ++ src.shape) dst.shape src.data with
    | some d => .ok { shape := dst.shape, data := d }
    | none => .error "shape mismatch"
  else .error "shape mismatch"

end Defs

/-! ## Values of `float` that are not numbers

The operations above compute with numbers.  A division by zero in the code does
not give a number: it gives an infinity or NaN, which the later operations carry
along.  The definitions of this section repeat `GetOutput` and `GetActionProbs`
on values that may be infinite or NaN.  Observations and parameters are numbers;
rounding, overflow and the sign of zero are not represented. -/

/-- A `float` value: a number, one of the two infinities, or NaN. -/
inductive FloatVal (K : Type) where
  | num (x : K)
  | posInf
  | negInf
  | nan

section IEEE

variable {K : Type} [LinearOrderedField K]

/-- Addition of `float` values. -/
def FloatVal.add : FloatVal K → FloatVal K → FloatVal K
  | .nan, _ => .nan
  | _, .nan => .nan
  | .posInf, .negInf => .nan
  | .negInf, .posInf => .nan
  | .posInf, _ => .posInf
  | _, .posInf => .posInf
  | .negInf, _ => .negInf
  | _, .negInf => .negInf
  | .num a, .num b => .num (a + b)

/-- Negation of a `float` value. -/
def FloatVal.neg : FloatVal K → FloatVal K
  | .nan => .nan
  | .posInf => .negInf
  | .negInf => .posInf
  | .num a => .num (-a)

/-- Subtraction of `float` values. -/
def FloatVal.sub (a b : FloatVal K) : FloatVal K := a.add b.neg

/-- Division of `float` values: a number divided by zero is an infinity of its
sign, and `0 / 0` is NaN. -/
def FloatVal.div : FloatVal K → FloatVal K → FloatVal K
  | .nan, _ => .nan
  | _, .nan => .nan
  | .num a, .num b =>
      if b = 0 then (if 0 < a then .posInf else if a < 0 then .negInf else .nan)
      else .num (a / b)
  | .num _, .posInf => .num 0
  | .num _, .negInf => .num 0
  | .posInf, .num b => if 0 ≤ b then .posInf else .negInf
  | .negInf, .num b => if 0 ≤ b then .negInf else .posInf
  | .posInf, .posInf => .nan
  | .posInf, .negInf => .nan
  | .negInf, .posInf => .nan
  | .negInf, .negInf => .nan

/-- The larger of two `float` values; NaN wins, as in the maximum of a tensor. -/
def FloatVal.max : FloatVal K → FloatVal K → FloatVal K
  | .nan, _ => .nan
  | _, .nan => .nan
  | .posInf, _ => .posInf
  | _, .posInf => .posInf
  | .negInf, b => b
  | a, .negInf => a
  | .num a, .num b => .num (Max.max a b)

/-- Exponential of a `float` value. -/
def FloatVal.exp (N : TorchMath K) : FloatVal K → FloatVal K
  | .nan => .nan
  | .posInf => .posInf
  | .negInf => .num 0
  | .num a => .num (N.exp a)

/-- The call `torch::clamp(x, lo, hi)` on a `float` value: `min(max(x, lo), hi)`
on numbers and infinities, and NaN stays NaN. -/
def FloatVal.clamp (v : FloatVal K) (lo hi : K) : FloatVal K :=
  match v with
  | .nan => .nan
  | .posInf => .num hi
  | .negInf => .num (min lo hi)
  | .num x => .num (RLGPC.clamp x lo hi)

/-- Sum of a row of `float` values. -/
def FloatVal.sum (row : List (FloatVal K)) : FloatVal K :=
  row.foldl FloatVal.add (.num 0)

/-- The largest value of a row (the row is not empty where this is used). -/
def FloatVal.rowMax : List (FloatVal K) → FloatVal K
  | [] => .negInf
  | v :: vs => vs.foldl FloatVal.max v

/-- Softmax along the last axis on `float` values, as the library computes it:
the largest entry is subtracted before the exponential. -/
def FloatVal.softmax (N : TorchMath K) (row : List (FloatVal K)) : List (FloatVal K) :=
  let shifted := row.map (fun v => (v.sub (FloatVal.rowMax row)).exp N)
  shifted.map (fun e => e.div (FloatVal.sum shifted))

/-- The method `DiscretePolicy::GetOutput` on `float` values. -/
def FloatVal.GetOutput (N : TorchMath K) (p : DiscretePolicy K) (input : List (List K)) :
    List (List (FloatVal K)) :=
  let baseOutput := (Sequential.forward p.seq input).map
    (fun r => r.map (fun x => (FloatVal.num x).div (.num p.temperature)))
  let result := baseOutput.map (FloatVal.softmax N)
  match p.actionProbBonuses with
  | some bonus =>
      let result := result.map (fun r => List.zipWith (fun x b => x.add (.num b)) r bonus)
      result.map (fun r => r.map (fun x => x.div (FloatVal.sum r)))
  | none => result

/-- The method `DiscretePolicy::GetActionProbs` on `float` values. -/
def FloatVal.GetActionProbs (N : TorchMath K) (ACTION_MIN_PROB : K) (p : DiscretePolicy K)
    (obs : List (List K)) : List (List (FloatVal K)) :=
  let probs := FloatVal.GetOutput N p obs
  let probs := view p.actionAmount.toNat probs.flatten
  probs.map (fun r => r.map (fun x => x.clamp ACTION_MIN_PROB 1))

end IEEE

/-! ## Concrete policies -/

section Examples

variable (K : Type) [LinearOrderedField K]

/-- A policy with one observation entry, one hidden unit and two actions, all
weights zero and output biases `s0`, `s1`: the raw scores of every observation
are `s0`, `s1`. -/
def twoActionPolicy (s0 s1 : K) : DiscretePolicy K :=
  { inputAmount := 1
    actionAmount := 2
    layerSizes := [1]
    temperature := 1
    seq := [Module.Linear 1 1 ⟨[1, 1], [0]⟩ ⟨[1], [0]⟩, Module.ReLU,
            Module.Linear 1 2 ⟨[2, 1], [0, 0]⟩ ⟨[2], [s0, s1]⟩]
    actionProbBonuses := none
    actionEntropyScales := none }

/-- An initialiser that fills every new `Linear` layer with the value `v`:
weight of shape `[out, in]`, bias of shape `[out]`. -/
def constInit (v : K) : Int → Int → Tensor K × Tensor K :=
  fun inF outF =>
    (⟨[outF.toNat, inF.toNat], List.replicate (outF.toNat * inF.toNat) v⟩,
     ⟨[outF.toNat], List.replicate outF.toNat v⟩)

/-- A policy `1 → [1] → 1` (one hidden layer), every parameter equal to `v`:
four parameter tensors. -/
def shallowPolicy (v : K) : DiscretePolicy K :=
  { inputAmount := 1
    actionAmount := 1
    layerSizes := [1]
    temperature := 1
    seq := [linearModule (constInit K v) 1 1, Module.ReLU, linearModule (constInit K v) 1 1]
    actionProbBonuses := none
    actionEntropyScales := none }

/-- A policy `1 → [1, 1] → 1` (two hidden layers), every parameter equal to `v`:
six parameter tensors. -/
def deepPolicy (v : K) : DiscretePolicy K :=
  { inputAmount := 1
    actionAmount := 1
    layerSizes := [1, 1]
    temperature := 1
    seq := [linearModule (constInit K v) 1 1, Module.ReLU, linearModule (constInit K v) 1 1, Module.ReLU,
            linearModule (constInit K v) 1 1]
    actionProbBonuses := none
    actionEntropyScales := none }

end Examples

/-! ## Lemmas on the library operations -/

theorem clamp_ge {K : Type} [LinearOrderedField K] (x lo hi : K) (h : lo ≤ hi) : lo ≤ clamp x lo hi := by
  unfold clamp
  exact le_min (le_max_right _ _) h

theorem clamp_le {K : Type} [LinearOrderedField K] (x lo hi : K) : clamp x lo hi ≤ hi := by
  unfold clamp
  exact min_le_right _ _

theorem view_nil {K : Type} (n : Nat) : view n ([] : List K) = [] := by
  rw [view]; simp

theorem view_ne_nil {K : Type} (n : Nat) (l : List K) : ∀ r ∈ view n l, r ≠ [] := by
  induction l using view.induct n with
  | case1 l h => intro r hr; rw [view, if_pos h] at hr; simp at hr
  | case2 l h ih =>
    intro r hr
    rw [view, if_neg h] at hr
    rcases List.mem_cons.1 hr with rfl | hr
    · push_neg at h
      intro hnil
      have := congrArg List.length hnil
      simp at this
      rcases this with h1 | h2
      · exact h.1 h1
      · exact h.2 (by simp [h2])
    · exact ih r hr

theorem view_flatten {K : Type} (n : Nat) (hn : 0 < n) (rows : List (List K))
    (h : ∀ r ∈ rows, r.length = n) : view n rows.flatten = rows := by
  induction rows with
  | nil => simp [view_nil]
  | cons r rs ih =>
    have hr : r.length = n := h r (List.mem_cons_self _ _)
    have hrs : ∀ q ∈ rs, q.length = n := fun q hq => h q (List.mem_cons_of_mem _ hq)
    rw [view, if_neg]
    · simp only [List.flatten_cons]
      rw [← hr, List.take_left, List.drop_left, hr, ih hrs]
    · simp only [List.flatten_cons, List.length_append]
      omega

theorem argmax_lt {K : Type} [LinearOrderedField K] (row : List K) (h : row ≠ []) : argmax row < row.length := by
  induction row with
  | nil => exact absurd rfl h
  | cons x xs ih =>
    unfold argmax
    split
    · simp
    · rename_i hall
      have hx : xs ≠ [] := by
        rintro rfl
        simp at hall
      have := ih hx
      simp only [List.length_cons]
      omega

theorem argmax_max {K : Type} [LinearOrderedField K] (row : List K) : ∀ y ∈ row, y ≤ row.getD (argmax row) 0 := by
  induction row with
  | nil => intro y hy; simp at hy
  | cons x xs ih =>
    intro y hy
    unfold argmax
    split
    · rename_i hall
      simp only [List.getD_cons_zero]
      rcases List.mem_cons.1 hy with rfl | hy
      · exact le_rfl
      · have := List.all_eq_true.1 hall y hy
        simpa using this
    · rename_i hall
      simp only [List.getD_cons_succ]
      rcases List.mem_cons.1 hy with rfl | hy
      · simp only [List.all_eq_true, decide_eq_true_eq, not_forall, not_le] at hall
        obtain ⟨z, hz, hlt⟩ := hall
        exact le_trans hlt.le (ih z hz)
      · exact ih y hy

theorem mem_zipWith_exists {α β γ : Type} (f : α → β → γ) :
    ∀ (a : List α) (b : List β) (x : γ), x ∈ List.zipWith f a b → ∃ u ∈ a, ∃ v ∈ b, f u v = x := by
  intro a
  induction a with
  | nil => intro b x hx; simp at hx
  | cons u us ih =>
    intro b x hx
    cases b with
    | nil => simp at hx
    | cons v vs =>
      simp only [List.zipWith_cons_cons, List.mem_cons] at hx
      rcases hx with rfl | hx
      · exact ⟨u, List.mem_cons_self _ _, v, List.mem_cons_self _ _, rfl⟩
      · obtain ⟨u2, hu, v2, hv, h⟩ := ih vs x hx
        exact ⟨u2, List.mem_cons_of_mem _ hu, v2, List.mem_cons_of_mem _ hv, h⟩

theorem normalize_zero {K : Type} [LinearOrderedField K] (r : List K) (h : r.sum = 0) :
    ∀ y ∈ r.map (fun x => x / r.sum), y = 0 := by
  intro y hy
  obtain ⟨x, _, rfl⟩ := List.mem_map.1 hy
  simp [h]

theorem normalize_bounds {K : Type} [LinearOrderedField K] (r : List K)
    (hnn : ∀ x ∈ r, 0 ≤ x) (hs : 0 < r.sum) :
    ∀ y ∈ r.map (fun x => x / r.sum), 0 ≤ y ∧ y ≤ 1 := by
  intro y hy
  obtain ⟨x, hx, rfl⟩ := List.mem_map.1 hy
  refine ⟨div_nonneg (hnn x hx) hs.le, ?_⟩
  rw [div_le_one hs]
  exact List.single_le_sum hnn x hx

theorem normalize_pos {K : Type} [LinearOrderedField K] (r : List K)
    (hp : ∀ x ∈ r, 0 < x) (hs : 0 < r.sum) :
    ∀ y ∈ r.map (fun x => x / r.sum), 0 < y := by
  intro y hy
  obtain ⟨x, hx, rfl⟩ := List.mem_map.1 hy
  exact div_pos (hp x hx) hs

theorem softmax_eq_normalize {K : Type} [LinearOrderedField K] (N : TorchMath K) (row : List K) :
    softmax N row = (row.map N.exp).map (fun x => x / (row.map N.exp).sum) := by
  simp [softmax, List.map_map, Function.comp_def]

theorem exp_row_sum_pos (row : List ℝ) (h : row ≠ []) : 0 < (row.map realMath.exp).sum := by
  apply List.sum_pos
  · intro x hx
    obtain ⟨y, _, rfl⟩ := List.mem_map.1 hx
    exact Real.exp_pos y
  · simpa using h

theorem softmax_pos (row : List ℝ) : ∀ y ∈ softmax realMath row, 0 < y := by
  intro y hy
  have hne : row ≠ [] := by
    rintro rfl
    simp [softmax] at hy
  rw [softmax_eq_normalize] at hy
  refine normalize_pos _ ?_ (exp_row_sum_pos row hne) y hy
  intro x hx
  obtain ⟨z, _, rfl⟩ := List.mem_map.1 hx
  exact Real.exp_pos z

theorem softmax_le_one (row : List ℝ) : ∀ y ∈ softmax realMath row, y ≤ 1 := by
  intro y hy
  have hne : row ≠ [] := by
    rintro rfl
    simp [softmax] at hy
  rw [softmax_eq_normalize] at hy
  refine (normalize_bounds _ ?_ (exp_row_sum_pos row hne) y hy).2
  intro x hx
  obtain ⟨z, _, rfl⟩ := List.mem_map.1 hx
  exact (Real.exp_pos z).le

theorem softmax_length {K : Type} [LinearOrderedField K] (N : TorchMath K) (row : List K) :
    (softmax N row).length = row.length := by
  simp [softmax]

/-! ## The rows of `GetOutput` -/

theorem GetOutput_none {K : Type} [LinearOrderedField K] (N : TorchMath K) (p : DiscretePolicy K)
    (input : List (List K)) (h : p.actionProbBonuses = none) :
    GetOutput N p input = (Sequential.forward p.seq input).map
      (fun sc => softmax N (sc.map (fun x => x / p.temperature))) := by
  simp [GetOutput, h, List.map_map, Function.comp_def]

theorem GetOutput_some {K : Type} [LinearOrderedField K] (N : TorchMath K) (p : DiscretePolicy K)
    (input : List (List K)) (bonus : List K) (h : p.actionProbBonuses = some bonus) :
    GetOutput N p input = (Sequential.forward p.seq input).map
      (fun sc =>
        (List.zipWith (fun x b => x + b) (softmax N (sc.map (fun x => x / p.temperature))) bonus).map
          (fun x => x /
            (List.zipWith (fun x b => x + b) (softmax N (sc.map (fun x => x / p.temperature))) bonus).sum)) := by
  simp [GetOutput, h, List.map_map, Function.comp_def]

/-- With the output of `GetOutput` shaped `(batch, actionAmount)`, the `view` of
`GetActionProbs` leaves the rows as they are: the result is the clamped output. -/
theorem GetActionProbs_eq_map {K : Type} [LinearOrderedField K] (N : TorchMath K) (lo : K)
    (p : DiscretePolicy K) (obs : List (List K)) (hn : 0 < p.actionAmount)
    (hshape : ∀ r ∈ GetOutput N p obs, r.length = p.actionAmount.toNat) :
    GetActionProbs N lo p obs = (GetOutput N p obs).map (fun r => r.map (fun x => clamp x lo 1)) := by
  have hn2 : 0 < p.actionAmount.toNat := by omega
  simp only [GetActionProbs]
  rw [view_flatten _ hn2 _ hshape]

theorem twoActionPolicy_forward {K : Type} [LinearOrderedField K] (s0 s1 x : K) :
    Sequential.forward (twoActionPolicy K s0 s1).seq [[x]] = [[s0, s1]] := by
  simp [Sequential.forward, twoActionPolicy, Module.forward, Tensor.row, dot, List.range_succ]

theorem twoActionPolicy_output (s0 s1 x : ℝ) :
    GetOutput realMath (twoActionPolicy ℝ s0 s1) [[x]]
      = [[Real.exp s0 / (Real.exp s0 + Real.exp s1), Real.exp s1 / (Real.exp s0 + Real.exp s1)]] := by
  rw [GetOutput_none _ _ _ rfl, twoActionPolicy_forward]
  simp [softmax, twoActionPolicy, realMath]

theorem twoActionPolicy_shape (s0 s1 x : ℝ) :
    ∀ r ∈ GetOutput realMath (twoActionPolicy ℝ s0 s1) [[x]],
      r.length = (twoActionPolicy ℝ s0 s1).actionAmount.toNat := by
  intro r hr
  rw [twoActionPolicy_output] at hr
  simp only [List.mem_singleton] at hr
  subst hr
  simp [twoActionPolicy]

theorem twoActionPolicy_probs (lo s0 s1 x : ℝ) :
    GetActionProbs realMath lo (twoActionPolicy ℝ s0 s1) [[x]]
      = [[clamp (Real.exp s0 / (Real.exp s0 + Real.exp s1)) lo 1,
          clamp (Real.exp s1 / (Real.exp s0 + Real.exp s1)) lo 1]] := by
  rw [GetActionProbs_eq_map _ _ _ _ (by simp [twoActionPolicy]) (twoActionPolicy_shape s0 s1 x),
    twoActionPolicy_output]
  rfl

/-! ## Entropy -/

theorem IList.get_of_getElem? (v : List Int) (i : Nat) (x : Int) (h : v[i]? = some x) :
    IList.get v i = Outcome.ok x := by
  simp [IList.get, h]

theorem nnLinear_ok {K : Type} (init : Int → Int → Tensor K × Tensor K) (a b : Int)
    (ha : 0 ≤ a) (hb : 0 ≤ b) : nnLinear init a b = Outcome.ok (linearModule init a b) := by
  unfold nnLinear
  rw [if_neg (by omega)]

theorem hiddenLoop_ok {K : Type} (init : Int → Int → Tensor K × Tensor K)
    (layerSizes : List Int) (hsizes : ∀ x ∈ layerSizes, 0 ≤ x) :
    ∀ (n j : Nat) (prev : Int) (seq : List (Module K)),
      n = layerSizes.length - (j + 1) → layerSizes[j]? = some prev →
      DiscretePolicy.hiddenLoop init layerSizes (j + 1) prev seq
        = Outcome.ok (seq ++ ((List.zip (layerSizes.drop j) (layerSizes.drop (j + 1))).map
            (fun ab => [linearModule init ab.1 ab.2, Module.ReLU])).flatten) := by
  intro n
  induction n with
  | zero =>
    intro j prev seq hn _
    have hge : layerSizes.length ≤ j + 1 := by omega
    rw [DiscretePolicy.hiddenLoop, if_neg (by omega)]
    rw [List.drop_eq_nil_of_le hge]
    simp
  | succ n ih =>
    intro j prev seq hn hprev
    have hlt : j + 1 < layerSizes.length := by omega
    have hj : j < layerSizes.length := by omega
    have hnext : layerSizes[j + 1]? = some layerSizes[j + 1] := List.getElem?_eq_getElem hlt
    have hpv : layerSizes[j] = prev := by
      rw [List.getElem?_eq_getElem hj] at hprev
      exact Option.some.inj hprev
    have hp0 : 0 ≤ prev := hsizes prev (hpv ▸ List.getElem_mem hj)
    have hn0 : 0 ≤ layerSizes[j + 1] := hsizes _ (List.getElem_mem hlt)
    rw [DiscretePolicy.hiddenLoop, if_pos hlt, IList.get_of_getElem? _ _ _ hnext]
    simp only [Outcome.bind, nnLinear_ok init _ _ hp0 hn0]
    rw [ih (j + 1) _ _ (by omega) hnext]
    congr 1
    have e1 : layerSizes.drop j = prev :: layerSizes.drop (j + 1) := by
      rw [List.drop_eq_getElem_cons hj, hpv]
    have e2 : layerSizes.drop (j + 1) = layerSizes[j + 1] :: layerSizes.drop (j + 1 + 1) :=
      List.drop_eq_getElem_cons hlt
    rw [e1]
    generalize layerSizes.drop (j + 1 + 1) = tl at e2 ⊢
    rw [e2]
    simp

theorem describedSeq_length {K : Type} (init : Int → Int → Tensor K × Tensor K)
    (inputAmount actionAmount : Int) (layerSizes : List Int) :
    (describedSeq init inputAmount actionAmount layerSizes).length = 2 * layerSizes.length + 1 := by
  have h : ∀ (l : List (Int × Int)),
      ((l.map (fun ab => [linearModule init ab.1 ab.2, Module.ReLU])).flatten).length
        = 2 * l.length := by
    intro l
    induction l with
    | nil => simp
    | cons a as ih => simp only [List.map_cons, List.flatten_cons, List.length_append, ih,
        List.length_cons, List.length_nil]; omega
  simp only [describedSeq, List.length_append, h, List.length_zip, List.length_cons,
    List.length_nil]
  omega

/-- The constructor succeeds on a non-empty list of non-negative sizes, with
non-negative `inputAmount` and `actionAmount`, when the placement on the device
succeeds; `seq` is then the described layer sequence. -/
theorem new_ok {K : Type} (init : Int → Int → Tensor K × Tensor K)
    (inputAmount actionAmount : Int) (layerSizes : List Int) (temperature : K)
    (hne : layerSizes ≠ []) (hsizes : ∀ x ∈ layerSizes, 0 ≤ x)
    (hin : 0 ≤ inputAmount) (hact : 0 ≤ actionAmount) :
    DiscretePolicy.new init (Except.ok ()) inputAmount actionAmount layerSizes temperature
      = Outcome.ok
          { inputAmount := inputAmount, actionAmount := actionAmount, layerSizes := layerSizes,
            temperature := temperature,
            seq := describedSeq init inputAmount actionAmount layerSizes,
            actionProbBonuses := none, actionEntropyScales := none } := by
  cases layerSizes with
  | nil => exact absurd rfl hne
  | cons first rest =>
    have hf0 : 0 ≤ first := hsizes first (List.mem_cons_self _ _)
    have hl0 : 0 ≤ (first :: rest).getLast (by simp) :=
      hsizes _ (List.getLast_mem _)
    have hloop := hiddenLoop_ok init (first :: rest) hsizes ((first :: rest).length - 1) 0 first
      ([] ++ [linearModule init inputAmount first] ++ [Module.ReLU]) rfl (by simp)
    have hback : IList.back (first :: rest) = Outcome.ok ((first :: rest).getLast (by simp)) := by
      simp [IList.back, List.getLast?_eq_getLast]
    simp only [DiscretePolicy.new, IList.get, List.getElem?_cons_zero, Outcome.bind,
      nnLinear_ok init _ _ hin hf0]
    rw [hloop, hback]
    simp only [nnLinear_ok init _ _ hl0 hact]
    simp [describedSeq, List.getLastD, List.getLast?_eq_getLast]

theorem pairs_getElem? {K : Type} (init : Int → Int → Tensor K × Tensor K) :
    ∀ (l : List (Int × Int)) (i : Nat),
      ((l.map (fun ab => [linearModule init ab.1 ab.2, Module.ReLU])).flatten)[2 * i]?
          = (l[i]?).map (fun ab => linearModule init ab.1 ab.2) ∧
      ((l.map (fun ab => [linearModule init ab.1 ab.2, Module.ReLU])).flatten)[2 * i + 1]?
          = (l[i]?).map (fun _ => Module.ReLU) := by
  intro l
  induction l with
  | nil => intro i; simp
  | cons a as ih =>
    intro i
    cases i with
    | zero => simp
    | succ i =>
      have e1 : 2 * (i + 1) = (2 * i) + 1 + 1 := by ring
      have e2 : 2 * (i + 1) + 1 = (2 * i + 1) + 1 + 1 := by ring
      obtain ⟨h1, h2⟩ := ih i
      constructor
      · rw [e1]
        simp only [List.map_cons, List.flatten_cons, List.cons_append, List.nil_append,
          List.getElem?_cons_succ]
        exact h1
      · rw [e2]
        simp only [List.map_cons, List.flatten_cons, List.cons_append, List.nil_append,
          List.getElem?_cons_succ]
        exact h2

theorem describedSeq_getElem? {K : Type} (init : Int → Int → Tensor K × Tensor K)
    (inputAmount actionAmount : Int) (layerSizes : List Int) :
    (∀ (i : Nat) (a b : Int), (inputAmount :: layerSizes)[i]? = some a → layerSizes[i]? = some b →
      (describedSeq init inputAmount actionAmount layerSizes)[2 * i]? = some (linearModule init a b) ∧
      (describedSeq init inputAmount actionAmount layerSizes)[2 * i + 1]? = some Module.ReLU) ∧
    (describedSeq init inputAmount actionAmount layerSizes)[2 * layerSizes.length]?
      = some (linearModule init (layerSizes.getLastD inputAmount) actionAmount) := by
  have hlen : ((List.zip (inputAmount :: layerSizes) layerSizes).map
      (fun ab => [linearModule init ab.1 ab.2, Module.ReLU])).flatten.length = 2 * layerSizes.length := by
    have := describedSeq_length init inputAmount actionAmount layerSizes
    simp only [describedSeq, List.length_append, List.length_cons, List.length_nil] at this
    omega
  constructor
  · intro i a b ha hb
    have hi : i < layerSizes.length := by
      rcases List.getElem?_eq_some_iff.1 hb with ⟨h, _⟩
      exact h
    have hz : (List.zip (inputAmount :: layerSizes) layerSizes)[i]? = some (a, b) := by
      rw [List.getElem?_zip_eq_some]
      exact ⟨ha, hb⟩
    obtain ⟨h1, h2⟩ := pairs_getElem? init (List.zip (inputAmount :: layerSizes) layerSizes) i
    rw [hz] at h1 h2
    simp only [describedSeq]
    rw [List.getElem?_append_left (by omega), List.getElem?_append_left (by omega)]
    exact ⟨h1, h2⟩
  · simp only [describedSeq]
    rw [List.getElem?_append_right (by omega), hlen]
    simp

/-! ## Parameter copy -/

theorem parameters_setParameters {K : Type} :
    ∀ (ms : List (Module K)) (ps : List (Tensor K)),
      ps.length = (Module.parameters ms).length →
      Module.parameters (Module.setParameters ms ps) = ps := by
  intro ms
  induction ms with
  | nil =>
    intro ps h
    simp only [Module.parameters, List.length_nil, List.length_eq_zero] at h
    simp [Module.setParameters, Module.parameters, h]
  | cons m ms ih =>
    intro ps h
    cases m with
    | ReLU =>
      simp only [Module.parameters] at h
      simp only [Module.setParameters, Module.parameters]
      exact ih ps h
    | Linear i o w b =>
      simp only [Module.parameters, List.length_cons] at h
      match ps, h with
      | p1 :: p2 :: rest, h =>
        simp only [List.length_cons, add_left_inj] at h
        simp only [Module.setParameters, Module.parameters, List.getD_cons_zero,
          List.getD_cons_succ, List.drop_succ_cons, List.drop_zero]
        rw [ih rest h]

theorem setParameters_parameters {K : Type} :
    ∀ (ms : List (Module K)), Module.setParameters ms (Module.parameters ms) = ms := by
  intro ms
  induction ms with
  | nil => rfl
  | cons m ms ih =>
    cases m with
    | ReLU => simp only [Module.parameters, Module.setParameters, ih]
    | Linear i o w b =>
      simp only [Module.parameters, Module.setParameters, List.getD_cons_zero,
        List.getD_cons_succ, List.drop_succ_cons, List.drop_zero, ih]

/-- The copy loop completes when every remaining tensor of `fromParams` meets a
tensor of the same shape in `toParams`: the tensors from index `i` up to the
length of `fromParams` are overwritten, the other ones are left as they are. -/
theorem copyLoop_ok {K : Type} (copy_ : Tensor K → Tensor K → Except String (Tensor K))
    (hcopy : ∀ d s : Tensor K, d.shape = s.shape → copy_ d s = Except.ok s)
    (fromParams : List (Tensor K)) :
    ∀ (n i : Nat) (toParams : List (Tensor K)),
      n = fromParams.length - i →
      (∀ (j : Nat) (s : Tensor K), i ≤ j → fromParams[j]? = some s →
        ∃ t, toParams[j]? = some t ∧ t.shape = s.shape) →
      ∃ R, DiscretePolicy.copyLoop copy_ fromParams i toParams = Outcome.ok R ∧
        R.length = toParams.length ∧
        ∀ j : Nat, R[j]? = if i ≤ j ∧ j < fromParams.length then fromParams[j]? else toParams[j]? := by
  intro n
  induction n with
  | zero =>
    intro i toParams hn _
    refine ⟨toParams, ?_, rfl, ?_⟩
    · rw [DiscretePolicy.copyLoop, dif_neg (by omega)]
    · intro j
      rw [if_neg (by omega)]
  | succ n ih =>
    intro i toParams hn hsh
    have hi : i < fromParams.length := by omega
    obtain ⟨t, ht, hts⟩ := hsh i fromParams[i] le_rfl (List.getElem?_eq_getElem hi)
    have hc := hcopy t fromParams[i] hts
    have hit : i < toParams.length := by
      rcases List.getElem?_eq_some_iff.1 ht with ⟨h, _⟩
      exact h
    obtain ⟨R, hR, hlen, hget⟩ := ih (i + 1) (toParams.set i fromParams[i]) (by omega) (by
      intro j s hj hs
      obtain ⟨t2, ht2, hs2⟩ := hsh j s (by omega) hs
      refine ⟨t2, ?_, hs2⟩
      rw [List.getElem?_set_ne (by omega)]
      exact ht2)
    refine ⟨R, ?_, ?_, ?_⟩
    · rw [DiscretePolicy.copyLoop, dif_pos hi, ht]
      simp only [List.get_eq_getElem, hc]
      exact hR
    · rw [hlen, List.length_set]
    · intro j
      rw [hget j]
      by_cases hji : j = i
      · subst hji
        rw [if_neg (by omega), if_pos ⟨le_rfl, hi⟩, List.getElem?_set_self hit,
          List.getElem?_eq_getElem hi]
      · rw [List.getElem?_set_ne (fun h => hji h.symm)]
        by_cases hc2 : i + 1 ≤ j ∧ j < fromParams.length
        · rw [if_pos hc2, if_pos ⟨by omega, hc2.2⟩]
        · rw [if_neg hc2, if_neg (by omega)]

/-- The copy loop reports the fatal error at the first index where the tensor
copy throws. -/
theorem copyLoop_fatal {K : Type} (copy_ : Tensor K → Tensor K → Except String (Tensor K))
    (hcopy : ∀ d s : Tensor K, d.shape = s.shape → copy_ d s = Except.ok s)
    (fromParams : List (Tensor K)) (m : Nat) (s t : Tensor K) (e : String)
    (hs : fromParams[m]? = some s) (he : copy_ t s = Except.error e) :
    ∀ (n i : Nat) (toParams : List (Tensor K)),
      n = m - i → i ≤ m → toParams[m]? = some t →
      (∀ (j : Nat) (s2 : Tensor K), i ≤ j → j < m → fromParams[j]? = some s2 →
        ∃ t2, toParams[j]? = some t2 ∧ t2.shape = s2.shape) →
      DiscretePolicy.copyLoop copy_ fromParams i toParams
        = Outcome.fatal ("DiscretePolicy::CopyTo() exception: " ++ e) := by
  have hm : m < fromParams.length := by
    rcases List.getElem?_eq_some_iff.1 hs with ⟨h, _⟩
    exact h
  have hsm : fromParams[m] = s := by
    rw [List.getElem?_eq_getElem hm] at hs
    exact Option.some.inj hs
  intro n
  induction n with
  | zero =>
    intro i toParams hn him ht _
    have : i = m := by omega
    subst this
    rw [DiscretePolicy.copyLoop, dif_pos hm, ht]
    simp only [List.get_eq_getElem, hsm, he, RG_ERR_CLOSE]
  | succ n ih =>
    intro i toParams hn him ht hsh
    have hi : i < fromParams.length := by omega
    obtain ⟨t2, ht2, hts⟩ := hsh i fromParams[i] le_rfl (by omega) (List.getElem?_eq_getElem hi)
    have hc := hcopy t2 fromParams[i] hts
    rw [DiscretePolicy.copyLoop, dif_pos hi, ht2]
    simp only [List.get_eq_getElem, hc]
    apply ih (i + 1) _ (by omega) (by omega)
    · rw [List.getElem?_set_ne (by omega)]
      exact ht
    · intro j s2 hj hjm hs2
      obtain ⟨t3, ht3, hs3⟩ := hsh j s2 (by omega) hjm hs2
      refine ⟨t3, ?_, hs3⟩
      rw [List.getElem?_set_ne (by omega)]
      exact ht3

theorem copy_ok {K : Type} (d s : Tensor K) (h : d.shape = s.shape) :
    Tensor.copy_ d s = Except.ok s := by
  cases s
  simp only at h
  simp [Tensor.copy_, h]

theorem copyLoop_zero {K : Type} (copy_ : Tensor K → Tensor K → Except String (Tensor K))
    (hcopy : ∀ d s : Tensor K, d.shape = s.shape → copy_ d s = Except.ok s)
    (fromParams toParams : List (Tensor K))
    (hsh : ∀ (j : Nat) (s : Tensor K), fromParams[j]? = some s →
      ∃ t, toParams[j]? = some t ∧ t.shape = s.shape) :
    DiscretePolicy.copyLoop copy_ fromParams 0 toParams
      = Outcome.ok (fromParams ++ toParams.drop fromParams.length) := by
  obtain ⟨R, hR, _, hget⟩ := copyLoop_ok copy_ hcopy fromParams fromParams.length 0 toParams rfl
    (fun j s _ hs => hsh j s hs)
  rw [hR]
  congr 1
  apply List.ext_getElem?
  intro j
  rw [hget j]
  by_cases hj : j < fromParams.length
  · rw [if_pos ⟨Nat.zero_le _, hj⟩, List.getElem?_append_left hj]
  · rw [if_neg (by omega), List.getElem?_append_right (by omega), List.getElem?_drop]
    congr 1
    omega

theorem CopyTo_ok {K : Type} (copy_ : Tensor K → Tensor K → Except String (Tensor K))
    (hcopy : ∀ d s : Tensor K, d.shape = s.shape → copy_ d s = Except.ok s)
    (src dst : DiscretePolicy K)
    (hsh : ∀ (j : Nat) (s : Tensor K), src.parameters[j]? = some s →
      ∃ t, dst.parameters[j]? = some t ∧ t.shape = s.shape) :
    DiscretePolicy.CopyTo copy_ src dst
      = Outcome.ok (src,
          dst.withParameters (src.parameters ++ dst.parameters.drop src.parameters.length)) ∧
    (dst.withParameters (src.parameters ++ dst.parameters.drop src.parameters.length)).parameters
      = src.parameters ++ dst.parameters.drop src.parameters.length := by
  have hle : src.parameters.length ≤ dst.parameters.length := by
    by_contra hlt
    push_neg at hlt
    have hj : dst.parameters.length < src.parameters.length := hlt
    obtain ⟨t, ht, _⟩ := hsh dst.parameters.length _ (List.getElem?_eq_getElem hj)
    rcases List.getElem?_eq_some_iff.1 ht with ⟨h, _⟩
    omega
  constructor
  · simp only [DiscretePolicy.CopyTo]
    rw [copyLoop_zero copy_ hcopy _ _ hsh]
    rfl
  · simp only [DiscretePolicy.parameters, DiscretePolicy.withParameters]
    apply parameters_setParameters
    simp only [List.length_append, List.length_drop]
    have : (Module.parameters src.seq).length ≤ (Module.parameters dst.seq).length := hle
    omega

theorem shapes_aligned_of_map_eq {K : Type} (a b : List (Tensor K))
    (h : a.map Tensor.shape = b.map Tensor.shape) :
    ∀ (j : Nat) (s : Tensor K), a[j]? = some s → ∃ t, b[j]? = some t ∧ t.shape = s.shape := by
  intro j s hs
  have h2 : (a.map Tensor.shape)[j]? = some s.shape := by
    rw [List.getElem?_map, hs]
    rfl
  rw [h, List.getElem?_map] at h2
  cases hb : b[j]? with
  | none => rw [hb] at h2; simp at h2
  | some t =>
    rw [hb] at h2
    simp only [Option.map_some', Option.some.injEq] at h2
    exact ⟨t, rfl, h2⟩

/-- The copy loop reads `toParams[m]` outside the vector when `toParams` has only
`m` tensors and `fromParams` has more, after copies of equal shape. -/
theorem copyLoop_undefined {K : Type} (copy_ : Tensor K → Tensor K → Except String (Tensor K))
    (hcopy : ∀ d s : Tensor K, d.shape = s.shape → copy_ d s = Except.ok s)
    (fromParams : List (Tensor K)) (m : Nat) (hm : m < fromParams.length) :
    ∀ (n i : Nat) (toParams : List (Tensor K)),
      n = m - i → i ≤ m → toParams.length = m →
      (∀ (j : Nat) (s2 : Tensor K), i ≤ j → j < m → fromParams[j]? = some s2 →
        ∃ t2, toParams[j]? = some t2 ∧ t2.shape = s2.shape) →
      DiscretePolicy.copyLoop copy_ fromParams i toParams = Outcome.undefined := by
  intro n
  induction n with
  | zero =>
    intro i toParams hn him hlen _
    have : i = m := by omega
    subst this
    have hnone : toParams[i]? = none := List.getElem?_eq_none (by omega)
    rw [DiscretePolicy.copyLoop, dif_pos hm, hnone]
  | succ n ih =>
    intro i toParams hn him hlen hsh
    have hi : i < fromParams.length := by omega
    obtain ⟨t2, ht2, hts⟩ := hsh i fromParams[i] le_rfl (by omega) (List.getElem?_eq_getElem hi)
    have hc := hcopy t2 fromParams[i] hts
    rw [DiscretePolicy.copyLoop, dif_pos hi, ht2]
    simp only [List.get_eq_getElem, hc]
    apply ih (i + 1) _ (by omega) (by omega)
    · rw [List.length_set, hlen]
    · intro j s2 hj hjm hs2
      obtain ⟨t3, ht3, hs3⟩ := hsh j s2 (by omega) hjm hs2
      refine ⟨t3, ?_, hs3⟩
      rw [List.getElem?_set_ne (by omega)]
      exact ht3

/-! ## Shape of the output -/

theorem Module.forward_linear_length {K : Type} [LinearOrderedField K] (i o : Int)
    (W b : Tensor K) (x : List K) :
    ((Module.Linear i o W b).forward x).length = W.shape.getD 0 0 := by
  simp [Module.forward]

/-- When the last module of `seq` is a `Linear` whose weight has `n` rows, every
row of `seq->forward(input)` has `n` entries. -/
theorem forward_length_of_last_linear {K : Type} [LinearOrderedField K] (ms : List (Module K))
    (i o : Int) (W b : Tensor K) (input : List (List K)) :
    ∀ r ∈ Sequential.forward (ms ++ [Module.Linear i o W b]) input,
      r.length = W.shape.getD 0 0 := by
  intro r hr
  simp only [Sequential.forward, List.mem_map] at hr
  obtain ⟨row, _, rfl⟩ := hr
  rw [List.foldl_append]
  simp only [List.foldl_cons, List.foldl_nil]
  exact Module.forward_linear_length i o W b _

/-- The output of `GetOutput` is shaped `(batch, n)` when the last module is a
`Linear` with `n` output rows and the bonus, when set, has `n` entries. -/
theorem GetOutput_shape {K : Type} [LinearOrderedField K] (N : TorchMath K)
    (p : DiscretePolicy K) (input : List (List K)) (ms : List (Module K)) (i o : Int)
    (W b : Tensor K) (hseq : p.seq = ms ++ [Module.Linear i o W b])
    (hbonus : ∀ bonus, p.actionProbBonuses = some bonus → bonus.length = W.shape.getD 0 0) :
    ∀ r ∈ GetOutput N p input, r.length = W.shape.getD 0 0 := by
  intro r hr
  have hf := forward_length_of_last_linear ms i o W b input
  rw [← hseq] at hf
  cases hb : p.actionProbBonuses with
  | none =>
    rw [GetOutput_none _ _ _ hb] at hr
    obtain ⟨sc, hsc, rfl⟩ := List.mem_map.1 hr
    rw [softmax_length, List.length_map]
    exact hf sc hsc
  | some bonus =>
    rw [GetOutput_some _ _ _ _ hb] at hr
    obtain ⟨sc, hsc, rfl⟩ := List.mem_map.1 hr
    rw [List.length_map, List.length_zipWith, softmax_length, List.length_map, hf sc hsc,
      hbonus bonus hb]
    exact min_self _

/-- A policy made by the constructor has a well-shaped output on every batch,
when the library gives a new `Linear` layer a weight with `out` rows. -/
theorem new_output_shape {K : Type} [LinearOrderedField K] (N : TorchMath K)
    (init : Int → Int → Tensor K × Tensor K)
    (hinit : ∀ a b : Int, (init a b).1.shape.getD 0 0 = b.toNat)
    (inputAmount actionAmount : Int) (layerSizes : List Int) (temperature : K)
    (hne : layerSizes ≠ []) (hsizes : ∀ x ∈ layerSizes, 0 ≤ x)
    (hin : 0 ≤ inputAmount) (hact : 0 ≤ actionAmount) (input : List (List K)) :
    ∃ p, DiscretePolicy.new init (Except.ok ()) inputAmount actionAmount layerSizes temperature
        = Outcome.ok p ∧
      ∀ r ∈ GetOutput N p input, r.length = p.actionAmount.toNat := by
  refine ⟨_, new_ok init inputAmount actionAmount layerSizes temperature hne hsizes hin hact, ?_⟩
  have h := GetOutput_shape N
    { inputAmount := inputAmount, actionAmount := actionAmount, layerSizes := layerSizes,
      temperature := temperature,
      seq := describedSeq init inputAmount actionAmount layerSizes,
      actionProbBonuses := none, actionEntropyScales := none }
    input _ _ _ _ _ rfl (by intro bonus hb; cases hb)
  rw [hinit] at h
  exact h

/-! ## The clamp on `float` values -/

theorem view_mem_subset {K : Type} (n : Nat) (l : List K) :
    ∀ r ∈ view n l, ∀ x ∈ r, x ∈ l := by
  induction l using view.induct n with
  | case1 l h => intro r hr; rw [view, if_pos h] at hr; simp at hr
  | case2 l h ih =>
    intro r hr x hx
    rw [view, if_neg h] at hr
    rcases List.mem_cons.1 hr with rfl | hr
    · exact List.mem_of_mem_take hx
    · exact List.mem_of_mem_drop (ih r hr x hx)

theorem FloatVal.clamp_cases {K : Type} [LinearOrderedField K] (v : FloatVal K) (lo : K)
    (hpos : 0 < lo) (hle : lo ≤ 1) :
    (v = FloatVal.nan ∧ v.clamp lo 1 = FloatVal.nan) ∨
      (v ≠ FloatVal.nan ∧ ∃ x, v.clamp lo 1 = FloatVal.num x ∧ lo ≤ x ∧ x ≤ 1 ∧ 0 < x) := by
  cases v with
  | nan => left; exact ⟨rfl, rfl⟩
  | posInf =>
    right
    exact ⟨by simp, 1, rfl, hle, le_rfl, by linarith⟩
  | negInf =>
    right
    refine ⟨by simp, min lo 1, rfl, ?_, min_le_right _ _, ?_⟩
    · rw [min_eq_left hle]
    · rw [min_eq_left hle]; exact hpos
  | num x =>
    right
    have h1 := clamp_ge x lo 1 hle
    exact ⟨by simp, RLGPC.clamp x lo 1, rfl, h1, clamp_le x lo 1, lt_of_lt_of_le hpos h1⟩

theorem FloatVal.GetActionProbs_mem {K : Type} [LinearOrderedField K] (N : TorchMath K) (lo : K)
    (p : DiscretePolicy K) (obs : List (List K)) :
    ∀ row ∈ FloatVal.GetActionProbs N lo p obs, ∀ v ∈ row,
      ∃ r ∈ FloatVal.GetOutput N p obs, ∃ u ∈ r, v = u.clamp lo 1 := by
  intro row hrow v hv
  simp only [FloatVal.GetActionProbs, List.mem_map] at hrow
  obtain ⟨c, hc, rfl⟩ := hrow
  obtain ⟨u, hu, rfl⟩ := List.mem_map.1 hv
  have hmem := view_mem_subset _ _ c hc u hu
  obtain ⟨r, hr, hur⟩ := List.mem_flatten.1 hmem
  exact ⟨r, hr, u, hur, rfl⟩

/-! ## Agreement of the two sets of definitions

When no division is by zero, the operations on `float` values give the numbers
of the operations on numbers. -/

/-- Claim C1 (amended): whatever the observation batch, the parameters, the
temperature and the probability bonus, every entry of the matrix returned by
`GetActionProbs` is the clamp of an entry of `GetOutput`, and it is either NaN or
a number that is at least `ACTION_MIN_PROB`, at most 1 and positive; it is NaN
exactly when the entry of `GetOutput` is NaN, so when `GetOutput` holds no NaN
every entry is such a number.  The constant `ACTION_MIN_PROB` is assumed to lie
in `(0, 1]`. -/
theorem GetActionProbs_nan_or_bounds {K : Type} [LinearOrderedField K] (N : TorchMath K)
    (ACTION_MIN_PROB : K) (p : DiscretePolicy K) (obs : List (List K))
    (hpos : 0 < ACTION_MIN_PROB) (hle : ACTION_MIN_PROB ≤ 1) :
    (∀ row ∈ FloatVal.GetActionProbs N ACTION_MIN_PROB p obs, ∀ v ∈ row,
      ∃ r ∈ FloatVal.GetOutput N p obs, ∃ u ∈ r, v = u.clamp ACTION_MIN_PROB 1 ∧
        ((u = FloatVal.nan ∧ v = FloatVal.nan) ∨
          (u ≠ FloatVal.nan ∧
            ∃ x, v = FloatVal.num x ∧ ACTION_MIN_PROB ≤ x ∧ x ≤ 1 ∧ 0 < x))) ∧
    ((∀ r ∈ FloatVal.GetOutput N p obs, ∀ u ∈ r, u ≠ FloatVal.nan) →
      ∀ row ∈ FloatVal.GetActionProbs N ACTION_MIN_PROB p obs, ∀ v ∈ row,
        ∃ x, v = FloatVal.num x ∧ ACTION_MIN_PROB ≤ x ∧ x ≤ 1 ∧ 0 < x) := by
  have key : ∀ row ∈ FloatVal.GetActionProbs N ACTION_MIN_PROB p obs, ∀ v ∈ row,
      ∃ r ∈ FloatVal.GetOutput N p obs, ∃ u ∈ r, v = u.clamp ACTION_MIN_PROB 1 ∧
        ((u = FloatVal.nan ∧ v = FloatVal.nan) ∨
          (u ≠ FloatVal.nan ∧
            ∃ x, v = FloatVal.num x ∧ ACTION_MIN_PROB ≤ x ∧ x ≤ 1 ∧ 0 < x)) := by
    intro row hrow v hv
    obtain ⟨r, hr, u, hu, rfl⟩ := FloatVal.GetActionProbs_mem N ACTION_MIN_PROB p obs row hrow v hv
    exact ⟨r, hr, u, hu, rfl, FloatVal.clamp_cases u ACTION_MIN_PROB hpos hle⟩
  refine ⟨key, ?_⟩
  intro hno row hrow v hv
  obtain ⟨r, hr, u, hu, _, h⟩ := key row hrow v hv
  rcases h with ⟨hnan, _⟩ | ⟨_, hx⟩
  · exact absurd hnan (hno r hr u hu)
  · exact hx

theorem GetActionProbs_nan_or_bounds_witness :
    ((0 : ℝ) < 1 / 10 ^ 11 ∧ (1 : ℝ) / 10 ^ 11 ≤ 1) ∧
    (∀ row ∈ FloatVal.GetActionProbs realMath (1 / 10 ^ 11) (twoActionPolicy ℝ 0 (-100)) [[0]],
      ∀ v ∈ row,
        ∃ r ∈ FloatVal.GetOutput realMath (twoActionPolicy ℝ 0 (-100)) [[0]], ∃ u ∈ r,
          v = u.clamp (1 / 10 ^ 11) 1 ∧
          ((u = FloatVal.nan ∧ v = FloatVal.nan) ∨
            (u ≠ FloatVal.nan ∧
              ∃ x, v = FloatVal.num x ∧ (1 : ℝ) / 10 ^ 11 ≤ x ∧ x ≤ 1 ∧ 0 < x))) ∧
    ((∀ r ∈ FloatVal.GetOutput realMath (twoActionPolicy ℝ 0 (-100)) [[0]], ∀ u ∈ r,
        u ≠ FloatVal.nan) →
      ∀ row ∈ FloatVal.GetActionProbs realMath (1 / 10 ^ 11) (twoActionPolicy ℝ 0 (-100)) [[0]],
        ∀ v ∈ row, ∃ x, v = FloatVal.num x ∧ (1 : ℝ) / 10 ^ 11 ≤ x ∧ x ≤ 1 ∧ 0 < x) :=
  ⟨⟨by norm_num, by norm_num⟩,
    GetActionProbs_nan_or_bounds realMath (1 / 10 ^ 11) (twoActionPolicy ℝ 0 (-100)) [[0]]
      (by norm_num) (by norm_num)⟩

/-- Claim C1 fails as stated: at temperature 0 the two-action policy with raw
scores `0`, `0` divides `0 / 0`, every entry of `GetOutput` is NaN, the clamp
leaves NaN as it is, and no entry of `GetActionProbs` is a number between
`ACTION_MIN_PROB = 1e-11` and 1. -/
theorem GetActionProbs_temperature_zero_counterexample :
    FloatVal.GetActionProbs realMath (1 / 10 ^ 11)
        { twoActionPolicy ℝ 0 0 with temperature := 0 } [[0]]
      = [[FloatVal.nan, FloatVal.nan]] ∧
    ¬ (∀ row ∈ FloatVal.GetActionProbs realMath (1 / 10 ^ 11)
          { twoActionPolicy ℝ 0 0 with temperature := 0 } [[0]],
        ∀ v ∈ row, ∃ x, v = FloatVal.num x ∧ (1 : ℝ) / 10 ^ 11 ≤ x ∧ x ≤ 1) := by
  have hfw : Sequential.forward
      ({ twoActionPolicy ℝ 0 0 with temperature := 0 } : DiscretePolicy ℝ).seq [[0]]
        = [[(0 : ℝ), 0]] := twoActionPolicy_forward 0 0 0
  have hout : FloatVal.GetOutput realMath { twoActionPolicy ℝ 0 0 with temperature := 0 } [[0]]
      = [[FloatVal.nan, FloatVal.nan]] := by
    simp only [FloatVal.GetOutput, hfw]
    simp [twoActionPolicy, FloatVal.softmax, FloatVal.div, FloatVal.rowMax, FloatVal.max,
      FloatVal.sub, FloatVal.add, FloatVal.neg, FloatVal.exp, FloatVal.sum]
  have heq : FloatVal.GetActionProbs realMath (1 / 10 ^ 11)
      { twoActionPolicy ℝ 0 0 with temperature := 0 } [[0]]
        = [[FloatVal.nan, FloatVal.nan]] := by
    simp only [FloatVal.GetActionProbs, hout]
    rw [view, view]
    simp [twoActionPolicy, FloatVal.clamp]
  refine ⟨heq, ?_⟩
  rw [heq]
  intro h
  obtain ⟨x, hx, _⟩ := h [FloatVal.nan, FloatVal.nan] (by simp) FloatVal.nan (by simp)
  cases hx

/-- Claim C3: for every row `i` and every valid action index `a = acts[i]`, the
log-probability that `GetBackpropData` returns for row `i` is the logarithm of
entry `a` of row `i` of `GetActionProbs`. -/
theorem GetBackpropData_actionLogProbs {K : Type} [LinearOrderedField K] (N : TorchMath K)
    (ACTION_MIN_PROB : K) (p : DiscretePolicy K) (obs : List (List K)) (acts : List Nat)
    (i : Nat) (row : List K) (a : Nat) (q : K)
    (hrow : (GetActionProbs N ACTION_MIN_PROB p obs)[i]? = some row)
    (hact : acts[i]? = some a) (hq : row[a]? = some q) :
    (GetBackpropData N ACTION_MIN_PROB p obs acts).actionLogProbs[i]? = some (N.log q) := by
  simp only [GetBackpropData, gather, List.getElem?_zipWith, List.getElem?_map, hrow, hact]
  simp [List.getD_eq_getElem?_getD, hq]

/-- Claim C4: `GetAction` with `deterministic = true` returns one action per row of
`GetActionProbs`, each an index at which its row attains its maximum, and a
log-probability vector with one entry per row, each exactly 0. -/
theorem GetAction_deterministic {K : Type} [LinearOrderedField K] (N : TorchMath K)
    (ACTION_MIN_PROB : K) (multinomial : List (List K) → List Nat) (p : DiscretePolicy K)
    (obs : List (List K)) :
    (GetAction N ACTION_MIN_PROB multinomial p obs true).action.length
        = (GetActionProbs N ACTION_MIN_PROB p obs).length ∧
    (GetAction N ACTION_MIN_PROB multinomial p obs true).logProb
        = List.replicate (GetActionProbs N ACTION_MIN_PROB p obs).length 0 ∧
    ∀ (i : Nat) (row : List K), (GetActionProbs N ACTION_MIN_PROB p obs)[i]? = some row →
      ∃ a, (GetAction N ACTION_MIN_PROB multinomial p obs true).action[i]? = some a ∧
        a < row.length ∧ ∀ y ∈ row, y ≤ row.getD a 0 := by
  refine ⟨by simp [GetAction], by simp [GetAction], ?_⟩
  intro i row hrow
  refine ⟨argmax row, by simp [GetAction, hrow], ?_, argmax_max row⟩
  apply argmax_lt
  have hmem : row ∈ GetActionProbs N ACTION_MIN_PROB p obs := List.getElem?_mem hrow
  simp only [GetActionProbs, List.mem_map] at hmem
  obtain ⟨r, hr, rfl⟩ := hmem
  have := view_ne_nil _ _ r hr
  simpa using this

theorem GetBackpropData_actionLogProbs_witness :
    (GetBackpropData realMath (1 / 10 ^ 11) (twoActionPolicy ℝ 0 0) [[0]] [1]).actionLogProbs[0]?
      = some (realMath.log
          (clamp (Real.exp 0 / (Real.exp 0 + Real.exp 0)) (1 / 10 ^ 11) 1)) :=
  GetBackpropData_actionLogProbs realMath (1 / 10 ^ 11) (twoActionPolicy ℝ 0 0) [[0]] [1] 0
    [clamp (Real.exp 0 / (Real.exp 0 + Real.exp 0)) (1 / 10 ^ 11) 1,
     clamp (Real.exp 0 / (Real.exp 0 + Real.exp 0)) (1 / 10 ^ 11) 1]
    1 (clamp (Real.exp 0 / (Real.exp 0 + Real.exp 0)) (1 / 10 ^ 11) 1)
    (by rw [twoActionPolicy_probs]; rfl) (by rfl) (by rfl)

/-- An instance of C4: on the two-action policy with equal scores, the
deterministic action of the single row is index 0 and its log-probability is 0. -/
theorem GetAction_deterministic_example :
    (GetAction realMath (1 / 10 ^ 11) (fun _ => []) (twoActionPolicy ℝ 0 0) [[0]] true).action = [0] ∧
    (GetAction realMath (1 / 10 ^ 11) (fun _ => []) (twoActionPolicy ℝ 0 0) [[0]] true).logProb
      = [0] := by
  simp [GetAction, twoActionPolicy_probs, argmax]

/-- Claim C10, the code at the failing input.  On the empty hidden-layer list,
whatever `inputAmount`, `actionAmount` and `temperature`, the first statement of
the constructor reads `layerSizes[0]` outside the vector: the execution is
undefined behaviour, not a reported construction error. -/
theorem DiscretePolicy.new_empty {K : Type} (init : Int → Int → Tensor K × Tensor K)
    (toDevice : Except String Unit) (inputAmount actionAmount : Int) (temperature : K) :
    DiscretePolicy.new init toDevice inputAmount actionAmount [] temperature
      = Outcome.undefined := by
  simp [DiscretePolicy.new, IList.get, Outcome.bind]

/-- Claim C8: for two policies of identical architecture (parameter lists of the
same length with equal shapes index by index), `src.CopyTo(dst)` completes, every
parameter tensor of `dst` then equals the tensor of `src` at the same index, `src`
is unchanged, and a second `src.CopyTo(dst)` leaves both policies as the first
call left them.  The tensor copy `copy_` of the library is any function that
copies between tensors of equal shape. -/
theorem CopyTo_same_architecture {K : Type}
    (copy_ : Tensor K → Tensor K → Except String (Tensor K))
    (hcopy : ∀ d s : Tensor K, d.shape = s.shape → copy_ d s = Except.ok s)
    (src dst : DiscretePolicy K)
    (harch : src.parameters.map Tensor.shape = dst.parameters.map Tensor.shape) :
    ∃ dst2, DiscretePolicy.CopyTo copy_ src dst = Outcome.ok (src, dst2) ∧
      dst2.parameters = src.parameters ∧
      DiscretePolicy.CopyTo copy_ src dst2 = Outcome.ok (src, dst2) := by
  have hlen : src.parameters.length = dst.parameters.length := by
    have := congrArg List.length harch
    simpa using this
  obtain ⟨h1, h2⟩ := CopyTo_ok copy_ hcopy src dst (shapes_aligned_of_map_eq _ _ harch)
  have hdrop : dst.parameters.drop src.parameters.length = [] :=
    List.drop_eq_nil_of_le (by omega)
  rw [hdrop, List.append_nil] at h1 h2
  refine ⟨_, h1, h2, ?_⟩
  obtain ⟨h3, _⟩ := CopyTo_ok copy_ hcopy src (dst.withParameters src.parameters)
    (shapes_aligned_of_map_eq _ _ (by rw [h2]))
  rw [h3]
  have hdrop2 : List.drop src.parameters.length (dst.withParameters src.parameters).parameters
      = [] := by
    rw [h2]
    simp
  rw [hdrop2, List.append_nil]
  have hself : (dst.withParameters src.parameters).withParameters src.parameters
      = dst.withParameters src.parameters := by
    have hq : ∀ q : DiscretePolicy K, Module.setParameters q.seq src.parameters = q.seq →
        q.withParameters src.parameters = q := by
      intro q h
      cases q
      simp only [DiscretePolicy.withParameters] at h ⊢
      rw [h]
    apply hq
    have := setParameters_parameters (dst.withParameters src.parameters).seq
    have h2b : Module.parameters (dst.withParameters src.parameters).seq = src.parameters := h2
    rw [h2b] at this
    exact this
  rw [hself]

theorem CopyTo_same_architecture_witness :
    ∃ dst2, DiscretePolicy.CopyTo Tensor.copy_ (shallowPolicy ℚ 1) (shallowPolicy ℚ 0)
        = Outcome.ok (shallowPolicy ℚ 1, dst2) ∧
      dst2.parameters = (shallowPolicy ℚ 1).parameters ∧
      DiscretePolicy.CopyTo Tensor.copy_ (shallowPolicy ℚ 1) dst2
        = Outcome.ok (shallowPolicy ℚ 1, dst2) :=
  CopyTo_same_architecture Tensor.copy_ copy_ok (shallowPolicy ℚ 1) (shallowPolicy ℚ 0)
    (by simp [shallowPolicy, DiscretePolicy.parameters, Module.parameters, nnLinear, constInit])

/-- Claim C9, the code at two failing inputs.  `src` with four parameter tensors
copied into `dst` with six (the first four of the same shapes): the call completes,
the first four tensors of `dst` are overwritten, the last two are left as they
were, and no error is reported.  `src` with six tensors copied into `dst` with
four: the loop reads `toParams[4]` outside the vector, which is undefined
behaviour, not the fatal error. -/
theorem CopyTo_length_mismatch :
    ((shallowPolicy ℚ 1).parameters.length = 4 ∧ (deepPolicy ℚ 0).parameters.length = 6) ∧
    DiscretePolicy.CopyTo Tensor.copy_ (shallowPolicy ℚ 1) (deepPolicy ℚ 0)
      = Outcome.ok (shallowPolicy ℚ 1,
          (deepPolicy ℚ 0).withParameters
            ((shallowPolicy ℚ 1).parameters ++ (deepPolicy ℚ 0).parameters.drop 4)) ∧
    DiscretePolicy.CopyTo Tensor.copy_ (deepPolicy ℚ 0) (shallowPolicy ℚ 1) = Outcome.undefined := by
  have hlen4 : (shallowPolicy ℚ 1).parameters.length = 4 := by
    simp [shallowPolicy, DiscretePolicy.parameters, Module.parameters, linearModule]
  have hlen6 : (deepPolicy ℚ 0).parameters.length = 6 := by
    simp [deepPolicy, DiscretePolicy.parameters, Module.parameters, linearModule]
  refine ⟨⟨hlen4, hlen6⟩, ?_, ?_⟩
  · have hsh : ∀ (j : Nat) (s : Tensor ℚ), (shallowPolicy ℚ 1).parameters[j]? = some s →
        ∃ t, (deepPolicy ℚ 0).parameters[j]? = some t ∧ t.shape = s.shape := by
      intro j s hs
      have hj : j < 4 := by
        rcases List.getElem?_eq_some_iff.1 hs with ⟨h, _⟩
        omega
      interval_cases j <;>
        simp [shallowPolicy, deepPolicy, DiscretePolicy.parameters, Module.parameters,
          linearModule, constInit] at hs ⊢ <;> simp [← hs]
    have h := (CopyTo_ok Tensor.copy_ copy_ok _ _ hsh).1
    rw [hlen4] at h
    exact h
  · have h := copyLoop_undefined Tensor.copy_ copy_ok (deepPolicy ℚ 0).parameters 4
      (by omega) 4 0 (shallowPolicy ℚ 1).parameters rfl (by omega) hlen4 (by
        intro j s2 _ hj hs2
        interval_cases j <;>
          simp [shallowPolicy, deepPolicy, DiscretePolicy.parameters, Module.parameters,
            linearModule, constInit] at hs2 ⊢ <;> simp [← hs2])
    simp only [DiscretePolicy.CopyTo, h, Outcome.bind]

end RLGPC
